import Mathlib

/-!
# Verification of `qutebrowser/completion/models/sqlmodel.py`

A shallow embedding of the SQL-backed completion model:

* the pattern compilation performed by `SqlCompletionModel.set_pattern`
  (two `str.replace` escaping passes, the `re.sub(r' +', '%')` space
  collapsing, and the `'%{}%'` wrapping), modelled on `List Char`;
* the two-level tree addressing (`index`, `parent`, `rowCount`,
  `columnCount`, `first_item`, `last_item`) over `QModelIndex` values.

A `QModelIndex` is either invalid (the root) or a created index holding a
row, a column and an internal pointer.  In the source the internal pointer
of an item index is the owning `_SqlCompletionCategory` object and
`SqlCompletionModel.parent` recovers its position with
`self._categories.index(parent_table)`; since the category list is
append-only and its members are pairwise distinct objects, storing the
category's position directly is an equivalent arena-style rendering, under
which that linear search returns exactly the stored position.

Fallible operations (Python list subscripts that may raise `IndexError`,
`qtutils.ensure_valid`) are embedded in `Except String`.  The SQL engine
(`sql.run_query`/`setQuery`) is external to this file: the row count a
query produces is passed in as an oracle argument wherever the source runs
a query, and a category records the parameter list it last bound.
-/

/-- From `SqlCompletionModel.set_pattern`: Python `pattern.replace(t, '\\' + t)`
for a one-character target `t` — every occurrence of `t` is replaced by a
backslash followed by `t`, all other characters are copied. -/
def replaceEsc (target : Char) : List Char → List Char
  | [] => []
  | c :: rest => (if c = target then ['\\', c] else [c]) ++ replaceEsc target rest

/-- From `re.sub(r' +', '%', pattern)` in `SqlCompletionModel.set_pattern`,
as a one-pass state machine: `inRun` records whether the previous character
belonged to a space run whose `'%'` has already been emitted. -/
def subSpacesAux : Bool → List Char → List Char
  | _, [] => []
  | inRun, c :: rest =>
    if c = ' ' then (if inRun then [] else ['%']) ++ subSpacesAux true rest
    else c :: subSpacesAux false rest

/-- `re.sub(r' +', '%', pattern)`: each maximal run of one-or-more space
characters is replaced by a single `'%'`. -/
def subSpaces (l : List Char) : List Char := subSpacesAux false l

/-- The pattern compilation of `SqlCompletionModel.set_pattern` (the four
statements reassigning the local `pattern`): escape `'%'`, escape `'_'`,
collapse space runs to `'%'`, wrap in `'%...%'`. -/
def compilePattern (raw : List Char) : List Char :=
  '%' :: (subSpaces (replaceEsc '_' (replaceEsc '%' raw)) ++ ['%'])

/-- Spec 4.1, stated per character: a literal `'%'` or `'_'` is prefixed
with a backslash, every other character stands alone. -/
def escChar (c : Char) : List Char :=
  if c = '%' ∨ c = '_' then ['\\', c] else [c]

/-- The spec's escaping phase: escape each literal `'%'` and `'_'` of the
input by prefixing it with a backslash, in one pass. -/
def escapeSpec (l : List Char) : List Char := l.flatMap escChar

/-- Spec-side run collapsing: replace each maximal run of one-or-more
characters satisfying `p` with a single `'%'` wildcard. -/
def collapseRuns (p : Char → Bool) : List Char → List Char
  | [] => []
  | c :: rest =>
    if p c then '%' :: collapseRuns p (rest.dropWhile p)
    else c :: collapseRuns p rest
termination_by l => l.length
decreasing_by
  · simp only [List.length_cons]
    exact Nat.lt_succ_of_le (List.Sublist.length_le (List.dropWhile_sublist p))
  · simp only [List.length_cons]
    exact Nat.lt_succ_self _

/-- `Bool`-valued space test used to instantiate `collapseRuns`. -/
def isSpaceChar (c : Char) : Bool := c == ' '

/-- The compilation claim C4 attributes to the code: collapse each maximal
run of *whitespace* (not just spaces) after escaping, then wrap. -/
def compileClaimWhitespace (raw : List Char) : List Char :=
  '%' :: (collapseRuns (fun c => c.isWhitespace) (escapeSpec raw) ++ ['%'])

/-- A Qt model index: `QModelIndex()` (invalid, also used as the root) or an
index produced by `createIndex(row, col, internalPointer)`.  The code only
ever creates indices with bounds-checked non-negative row and column, so
those are `Nat`; the internal pointer is `none` for a category index and
`some c` for an item index, where `c` is the position of the owning
category object in `SqlCompletionModel._categories`. -/
inductive QModelIndex where
  | invalid : QModelIndex
  | node (row : Nat) (col : Nat) (ptr : Option Nat) : QModelIndex
deriving DecidableEq, Repr

/-- `QModelIndex.isValid()`. -/
def QModelIndex.isValid : QModelIndex → Bool
  | .invalid => false
  | .node _ _ _ => true

/-- `QModelIndex.row()`: `-1` on an invalid index. -/
def QModelIndex.rowOf : QModelIndex → Int
  | .invalid => -1
  | .node r _ _ => r

/-- `QModelIndex.column()`: `-1` on an invalid index. -/
def QModelIndex.colOf : QModelIndex → Int
  | .invalid => -1
  | .node _ c _ => c

/-- `QModelIndex.internalPointer()`. -/
def QModelIndex.ptrOf : QModelIndex → Option Nat
  | .invalid => none
  | .node _ _ p => p

/-- One `_SqlCompletionCategory`: its table name, the column positions it
filters on (`columns_to_filter` at construction, from which `_fields` is
read off the table schema, one field per position), the live row count of
its current result set (produced by the external SQL engine), and the
parameter list bound by the last `set_pattern` call. -/
structure SqlCompletionCategory where
  tablename : List Char
  filterColumns : List Nat
  rows : Nat
  appliedParams : List (List Char)
deriving DecidableEq, Repr

/-- `_SqlCompletionCategory.set_pattern`: runs the stored query string with
the pattern bound once per filtered field (`[pattern for _ in self._fields]`,
and `len(self._fields) = len(columns_to_filter)`) and installs the engine's
result set, whose row count `newRows` is external input. -/
def SqlCompletionCategory.set_pattern (cat : SqlCompletionCategory)
    (pattern : List Char) (newRows : Nat) : SqlCompletionCategory :=
  { cat with
    appliedParams := List.replicate cat.filterColumns.length pattern
    rows := newRows }

/-- The `SqlCompletionModel` state: the filter-column configuration, the
ordered category list and the last raw pattern. -/
structure SqlCompletionModel where
  columns_to_filter : List Nat
  categories : List SqlCompletionCategory
  pattern : List Char
deriving DecidableEq, Repr

/-- `SqlCompletionModel.__init__`: `self.columns_to_filter = columns_to_filter
or [0]` — Python `or` yields `[0]` exactly when the argument is falsy
(`None`, which also covers an omitted argument, or the empty list). -/
def SqlCompletionModel.init (columnsToFilter : Option (List Nat)) :
    SqlCompletionModel :=
  { columns_to_filter :=
      match columnsToFilter with
      | none => [0]
      | some l => if l = [] then [0] else l
    categories := []
    pattern := [] }

/-- `SqlCompletionModel.new_category`: builds a `_SqlCompletionCategory`
from `self.columns_to_filter` and appends it.  The construction probes the
table and runs the initial `set_pattern('%')`; the engine's initial row
count is the external `initRows`, and the initial bound parameters are one
`"%"` per filtered field. -/
def SqlCompletionModel.new_category (m : SqlCompletionModel)
    (name : List Char) (initRows : Nat) : SqlCompletionModel :=
  { m with
    categories := m.categories ++
      [{ tablename := name
         filterColumns := m.columns_to_filter
         rows := initRows
         appliedParams := List.replicate m.columns_to_filter.length ['%'] }] }

/-- `SqlCompletionModel._cat_from_idx`: a valid index with an empty internal
pointer designates the category at `self._categories[index.row()]` (a Python
subscript, raising `IndexError` when out of range); every other index maps
to `None`. -/
def SqlCompletionModel.cat_from_idx (m : SqlCompletionModel)
    (index : QModelIndex) : Except String (Option SqlCompletionCategory) :=
  match index with
  | .node row _ none =>
    match m.categories[row]? with
    | some cat => .ok (some cat)
    | none => .error "IndexError"
  | _ => .ok none

/-- `SqlCompletionModel.rowCount`: number of categories at the root; `0` for
an item index or a category index at a non-zero column; otherwise the
category's live row count. -/
def SqlCompletionModel.rowCount (m : SqlCompletionModel)
    (parent : QModelIndex) : Except String Nat :=
  match parent with
  | .invalid => .ok m.categories.length
  | _ =>
    match m.cat_from_idx parent with
    | .error e => .error e
    | .ok none => .ok 0
    | .ok (some cat) =>
      if parent.colOf ≠ 0 then .ok 0 else .ok cat.rows

/-- `SqlCompletionModel.columnCount`: always 3. -/
def SqlCompletionModel.columnCount (_m : SqlCompletionModel)
    (_parent : QModelIndex) : Nat := 3

/-- `SqlCompletionModel.index`: bounds-check `(row, col)` against
`rowCount(parent)`/`columnCount(parent)` (invalid on failure); under the
root create a category index; under a valid parent at a non-zero column
return invalid; otherwise create an item index whose internal pointer is
`self._categories[parent.row()]`. -/
def SqlCompletionModel.index (m : SqlCompletionModel) (row col : Int)
    (parent : QModelIndex) : Except String QModelIndex :=
  match m.rowCount parent with
  | .error e => .error e
  | .ok rc =>
    if row < 0 ∨ (rc : Int) ≤ row ∨ col < 0 ∨
        (m.columnCount parent : Int) ≤ col then
      .ok .invalid
    else if parent.isValid then
      if parent.colOf ≠ 0 then
        .ok .invalid
      else
        match m.categories[parent.rowOf.toNat]? with
        | some _ => .ok (.node row.toNat col.toNat (some parent.rowOf.toNat))
        | none => .error "IndexError"
    else
      .ok (.node row.toNat col.toNat none)

/-- `SqlCompletionModel.parent`: an empty internal pointer means a category
(or invalid) index, whose parent is the root; an item index's parent is the
category index at the position of the stored category
(`self._categories.index(parent_table)`), column 0. -/
def SqlCompletionModel.parent (_m : SqlCompletionModel)
    (index : QModelIndex) : QModelIndex :=
  match index.ptrOf with
  | none => .invalid
  | some catIdx => .node catIdx 0 none

/-- The `for cat in self._categories: cat.set_pattern(pattern)` loop of
`SqlCompletionModel.set_pattern`, carrying the absolute position for the
engine oracle. -/
def applyAll (compiled : List Char) (engine : Nat → Nat) :
    Nat → List SqlCompletionCategory → List SqlCompletionCategory
  | _, [] => []
  | i, cat :: rest =>
    cat.set_pattern compiled (engine i) :: applyAll compiled engine (i + 1) rest

/-- `SqlCompletionModel.set_pattern`: store the raw pattern verbatim in
`self.pattern`, compile it, and apply the compiled pattern to every
category in list order.  Each category's new result set comes from the
external engine: `engine i` is the row count the query returns for the
category at position `i`. -/
def SqlCompletionModel.set_pattern (m : SqlCompletionModel)
    (raw : List Char) (engine : Nat → Nat) : SqlCompletionModel :=
  { m with
    pattern := raw
    categories := applyAll (compilePattern raw) engine 0 m.categories }

/-- The loop body of `SqlCompletionModel.first_item`, over the remaining
suffix of `self._categories`; `row` is the absolute position of the suffix
head (the `enumerate` counter).  `qtutils.ensure_valid` raises on an
invalid index. -/
def firstItemAux (m : SqlCompletionModel) :
    List SqlCompletionCategory → Nat → Except String QModelIndex
  | [], _ => .ok .invalid
  | cat :: rest, row =>
    if 0 < cat.rows then
      match m.index (row : Int) 0 .invalid with
      | .error e => .error e
      | .ok parent =>
        match m.index 0 0 parent with
        | .error e => .error e
        | .ok idx =>
          if idx.isValid then .ok idx else .error "ensure_valid"
    else firstItemAux m rest (row + 1)

/-- `SqlCompletionModel.first_item`: scan categories in order for the first
with a non-zero row count and return the index of its row 0, column 0. -/
def SqlCompletionModel.first_item (m : SqlCompletionModel) :
    Except String QModelIndex :=
  firstItemAux m m.categories 0

/-- The loop body of `SqlCompletionModel.last_item`: the source iterates
`reversed(list(enumerate(self._categories)))`, rendered here as a countdown
over positions — `lastItemAux m n` visits positions `n-1, n-2, ..., 0`. -/
def lastItemAux (m : SqlCompletionModel) : Nat → Except String QModelIndex
  | 0 => .ok .invalid
  | n + 1 =>
    match m.categories[n]? with
    | none => .error "IndexError"
    | some cat =>
      if 0 < cat.rows then
        match m.index (n : Int) 0 .invalid with
        | .error e => .error e
        | .ok parent =>
          match m.index ((cat.rows : Int) - 1) 0 parent with
          | .error e => .error e
          | .ok idx =>
            if idx.isValid then .ok idx else .error "ensure_valid"
      else lastItemAux m n

/-- `SqlCompletionModel.last_item`: scan categories in reverse order for the
first with a non-zero row count and return the index of its last row,
column 0. -/
def SqlCompletionModel.last_item (m : SqlCompletionModel) :
    Except String QModelIndex :=
  lastItemAux m m.categories.length

/-- Well-formedness of an index with respect to a model: a category index
must point inside the category list.  Every index the model hands out
satisfies this (category indices are bounds-checked at creation and the
category list is append-only); it rules out only forged addresses, on which
the Python subscript in `_cat_from_idx` would raise. -/
def SqlCompletionModel.wfIdx (m : SqlCompletionModel) :
    QModelIndex → Bool
  | .node r _ none => decide (r < m.categories.length)
  | _ => true

/-- A concrete category used to instantiate theorems with hypotheses. -/
def catW : SqlCompletionCategory :=
  { tablename := ['t'], filterColumns := [0, 1], rows := 2,
    appliedParams := [] }

/-- A concrete one-category model used to instantiate theorems with
hypotheses. -/
def mW : SqlCompletionModel :=
  { columns_to_filter := [0, 1], categories := [catW], pattern := [] }

theorem replaceEsc_pair (l : List Char) :
    replaceEsc '_' (replaceEsc '%' l) = escapeSpec l := by
  induction l with
  | nil => rfl
  | cons c rest ih =>
    by_cases h1 : c = '%'
    · subst h1
      simp [replaceEsc, escapeSpec, escChar, ih]
    · by_cases h2 : c = '_'
      · subst h2
        simp [replaceEsc, escapeSpec, escChar, ih]
      · simp [replaceEsc, escapeSpec, escChar, h1, h2, ih]

theorem subSpacesAux_eq (l : List Char) :
    subSpacesAux false l = collapseRuns isSpaceChar l ∧
    subSpacesAux true l = collapseRuns isSpaceChar (l.dropWhile isSpaceChar) := by
  induction l with
  | nil => constructor <;> simp [subSpacesAux, collapseRuns]
  | cons c rest ih =>
    by_cases h : c = ' '
    · subst h
      constructor
      · simp [subSpacesAux, collapseRuns, isSpaceChar, ih.2]
      · simp [subSpacesAux, collapseRuns, isSpaceChar, List.dropWhile, ih.2]
    · have hb : (c == ' ') = false := by
        simp [h]
      constructor
      · simp [subSpacesAux, collapseRuns, isSpaceChar, h, hb, ih.1]
      · simp [subSpacesAux, collapseRuns, isSpaceChar, h, hb, List.dropWhile, ih.1]

theorem count_escapeSpec_backslash (l : List Char) :
    (escapeSpec l).count '\\' = l.count '\\' + l.count '%' + l.count '_' := by
  induction l with
  | nil => rfl
  | cons c rest ih =>
    have hc : escapeSpec (c :: rest) = escChar c ++ escapeSpec rest := by
      simp [escapeSpec]
    rw [hc, List.count_append, ih]
    by_cases h1 : c = '%'
    · subst h1
      simp [escChar, List.count_cons]
      omega
    · by_cases h2 : c = '_'
      · subst h2
        simp [escChar, List.count_cons]
        omega
      · by_cases h3 : c = '\\'
        · subst h3
          simp [escChar, List.count_cons]
          omega
        · simp [escChar, List.count_cons, h1, h2, h3]

theorem count_subSpacesAux (x : Char) (hsp : x ≠ ' ') (hpc : x ≠ '%')
    (b : Bool) (l : List Char) :
    (subSpacesAux b l).count x = l.count x := by
  induction l generalizing b with
  | nil => simp [subSpacesAux]
  | cons c rest ih =>
    by_cases h : c = ' '
    · subst h
      cases b <;>
        simp [subSpacesAux, List.count_cons, ih, hsp, hpc,
          Ne.symm hsp, Ne.symm hpc]
    · simp [subSpacesAux, h, List.count_cons, ih]

/-- C3: the compilation of `set_pattern` escapes each literal `'%'` and
`'_'` of the raw input by prefixing it with a backslash (the two
sequential `str.replace` passes equal the one-pass per-character escaping
`escapeSpec`), wraps the whole result in `'%...%'`, and maps `""` to
`"%%"`, `"foo bar"` to `"%foo%bar%"`, and `"50% off"` to `"%50\%%off%"`.
Compilation never fails: `compilePattern` is a total function. -/
theorem c3_escape_and_wrap :
    (∀ raw : List Char, replaceEsc '_' (replaceEsc '%' raw) = escapeSpec raw) ∧
    (∀ raw : List Char,
      compilePattern raw = '%' :: (subSpaces (escapeSpec raw) ++ ['%'])) ∧
    compilePattern [] = "%%".data ∧
    compilePattern "foo bar".data = "%foo%bar%".data ∧
    compilePattern "50% off".data = "%50\\%%off%".data := by
  refine ⟨replaceEsc_pair, fun raw => ?_, by decide, by decide, by decide⟩
  rw [compilePattern, replaceEsc_pair]

/-- C4, as stated, is false: the compilation does not collapse runs of
arbitrary whitespace.  On the one-character input `"\t"` the code keeps
the tab (`compilePattern` yields `"%\t%"`), while the claimed
whitespace-collapsing compilation (`compileClaimWhitespace`) replaces it
with a `'%'` wildcard. -/
theorem c4_counterexample_tab :
    compilePattern ['\t'] = ['%', '\t', '%'] ∧
    compilePattern ['\t'] ≠ compileClaimWhitespace ['\t'] := by
  have ht : ('\t').isWhitespace = true := by decide
  have hesc : escapeSpec ['\t'] = ['\t'] := by decide
  have h2 : compileClaimWhitespace ['\t'] = ['%', '%', '%'] := by
    rw [compileClaimWhitespace, hesc]
    simp [collapseRuns, ht]
  rw [h2]
  constructor
  · decide
  · decide

/-- C4 amended: the compilation in `set_pattern` replaces each maximal run
of one-or-more *space* characters (U+0020 only, the regex `' +'`) with a
single `'%'` wildcard; tabs, newlines and all other whitespace are copied
unchanged like ordinary characters. -/
theorem c4_amended_space_runs (raw : List Char) :
    compilePattern raw =
      '%' :: (collapseRuns isSpaceChar (escapeSpec raw) ++ ['%']) := by
  rw [compilePattern, replaceEsc_pair, subSpaces,
    (subSpacesAux_eq (escapeSpec raw)).1]

/-- C9: the compilation never escapes backslashes.  A raw input consisting
of a single backslash compiles to `"%\%"`, and for every raw input the
compiled pattern holds exactly the backslashes of the raw input plus the
one added in front of each literal `'%'` and `'_'` — raw backslashes are
copied, never doubled. -/
theorem c9_backslash_preserved :
    compilePattern ['\\'] = ['%', '\\', '%'] ∧
    ∀ raw : List Char,
      (compilePattern raw).count '\\' =
        raw.count '\\' + raw.count '%' + raw.count '_' := by
  constructor
  · decide
  · intro raw
    have h1 := count_subSpacesAux '\\' (by decide) (by decide) false (escapeSpec raw)
    have h2 := count_escapeSpec_backslash raw
    rw [compilePattern, replaceEsc_pair, subSpaces]
    simp [List.count_cons, List.count_append, h1, h2]

theorem rowCount_root (m : SqlCompletionModel) :
    m.rowCount .invalid = .ok m.categories.length := rfl

theorem rowCount_category (m : SqlCompletionModel) (r col : Nat)
    (c : SqlCompletionCategory) (h : m.categories[r]? = some c) :
    m.rowCount (.node r col none) = .ok (if col = 0 then c.rows else 0) := by
  by_cases hc : col = 0
  · subst hc
    simp [SqlCompletionModel.rowCount, SqlCompletionModel.cat_from_idx, h,
      QModelIndex.colOf]
  · have hc' : ((col : Int) ≠ 0) := by
      exact_mod_cast hc
    simp [SqlCompletionModel.rowCount, SqlCompletionModel.cat_from_idx, h,
      QModelIndex.colOf, hc, hc']

theorem rowCount_item (m : SqlCompletionModel) (r col q : Nat) :
    m.rowCount (.node r col (some q)) = .ok 0 := rfl

theorem index_oob (m : SqlCompletionModel) (parent : QModelIndex)
    (rc : Nat) (hrc : m.rowCount parent = .ok rc) (row col : Int)
    (h : row < 0 ∨ (rc : Int) ≤ row ∨ col < 0 ∨ 3 ≤ col) :
    m.index row col parent = .ok .invalid := by
  have h' : row < 0 ∨ (rc : Int) ≤ row ∨ col < 0 ∨
      (m.columnCount parent : Int) ≤ col := by
    have h3 : (m.columnCount parent : Int) = 3 := rfl
    rw [h3]
    exact h
  simp only [SqlCompletionModel.index, hrc]
  rw [if_pos h']

theorem index_root_ok (m : SqlCompletionModel) (row col : Int)
    (h0 : 0 ≤ row) (h1 : row < (m.categories.length : Int))
    (h2 : 0 ≤ col) (h3 : col < 3) :
    m.index row col .invalid = .ok (.node row.toNat col.toNat none) := by
  have hcond : ¬(row < 0 ∨ (m.categories.length : Int) ≤ row ∨ col < 0 ∨
      (m.columnCount QModelIndex.invalid : Int) ≤ col) := by
    have h33 : (m.columnCount QModelIndex.invalid : Int) = 3 := rfl
    rw [h33]
    push_neg
    exact ⟨h0, by omega, h2, by omega⟩
  simp only [SqlCompletionModel.index, rowCount_root]
  rw [if_neg hcond]
  simp [QModelIndex.isValid]

theorem index_under_category_ok (m : SqlCompletionModel) (p : Nat)
    (c : SqlCompletionCategory) (hp : m.categories[p]? = some c)
    (row col : Int) (h0 : 0 ≤ row) (h1 : row < (c.rows : Int))
    (h2 : 0 ≤ col) (h3 : col < 3) :
    m.index row col (.node p 0 none) =
      .ok (.node row.toNat col.toNat (some p)) := by
  have hrc : m.rowCount (.node p 0 none) = .ok c.rows := by
    simpa using rowCount_category m p 0 c hp
  have hcond : ¬(row < 0 ∨ (c.rows : Int) ≤ row ∨ col < 0 ∨
      (m.columnCount (.node p 0 none) : Int) ≤ col) := by
    have h33 : (m.columnCount (.node p 0 none) : Int) = 3 := rfl
    rw [h33]
    push_neg
    exact ⟨h0, by omega, h2, by omega⟩
  simp only [SqlCompletionModel.index, hrc]
  rw [if_neg hcond]
  have hr : (QModelIndex.node p 0 none).rowOf.toNat = p := by
    simp [QModelIndex.rowOf]
  simp [QModelIndex.isValid, QModelIndex.colOf, hr, hp]

/-- C1: for a category parent index (top-level, column 0, pointing at an
existing category) and any in-range `(row, col)` with `row < rowCount
(parent)` and `col < 3`, `index(row, col, parent)` succeeds, is valid, and
`parent(index(row, col, parent)) = parent`. -/
theorem c1_parent_of_index (m : SqlCompletionModel) (p row col : Nat)
    (c : SqlCompletionCategory) (hp : m.categories[p]? = some c)
    (hrow : row < c.rows) (hcol : col < 3) :
    ∃ idx : QModelIndex,
      m.index row col (.node p 0 none) = .ok idx ∧
      idx.isValid = true ∧
      m.parent idx = .node p 0 none := by
  refine ⟨.node row col (some p), ?_, rfl, rfl⟩
  have h := index_under_category_ok m p c hp row col
    (by omega) (by exact_mod_cast hrow) (by omega) (by exact_mod_cast hcol)
  simpa using h

/-- C1 witness at a concrete one-category model with two rows. -/
theorem c1_witness :
    ∃ idx : QModelIndex,
      mW.index 1 0 (.node 0 0 none) = .ok idx ∧
      idx.isValid = true ∧
      mW.parent idx = .node 0 0 none :=
  c1_parent_of_index mW 0 1 0 catW rfl (by decide) (by decide)

/-- C2: `rowCount` returns the number of categories at the root, the
category's live row count for a category index at column 0, `0` for a
category index at a non-zero column, and `0` for any item index. -/
theorem c2_rowCount_cases (m : SqlCompletionModel) :
    m.rowCount .invalid = .ok m.categories.length ∧
    (∀ (r col : Nat) (c : SqlCompletionCategory),
      m.categories[r]? = some c →
      m.rowCount (.node r col none) = .ok (if col = 0 then c.rows else 0)) ∧
    (∀ r col q : Nat, m.rowCount (.node r col (some q)) = .ok 0) :=
  ⟨rowCount_root m, fun r col c h => rowCount_category m r col c h,
    fun r col q => rowCount_item m r col q⟩

/-- C2 witness: the concrete model has one category with two rows. -/
theorem c2_witness :
    mW.rowCount (.node 0 0 none) = .ok (if 0 = 0 then catW.rows else 0) :=
  (c2_rowCount_cases mW).2.1 0 0 catW rfl

/-- C6: `columnCount` is 3 for every parent, and only column 0 has
children: a category index at a non-zero column has `rowCount` 0 and
`index(row, col, ·)` is invalid for every `(row, col)`. -/
theorem c6_columns (m : SqlCompletionModel) :
    (∀ parent : QModelIndex, m.columnCount parent = 3) ∧
    (∀ (r col : Nat) (c : SqlCompletionCategory),
      m.categories[r]? = some c → col ≠ 0 →
      m.rowCount (.node r col none) = .ok 0 ∧
      ∀ row col2 : Int,
        m.index row col2 (.node r col none) = .ok .invalid) := by
  refine ⟨fun _ => rfl, fun r col c h hcol => ?_⟩
  have hrc : m.rowCount (.node r col none) = .ok 0 := by
    have := rowCount_category m r col c h
    rwa [if_neg hcol] at this
  refine ⟨hrc, fun row col2 => ?_⟩
  exact index_oob m _ 0 hrc row col2 (by omega)

/-- C6 witness: non-zero-column category index in the concrete model. -/
theorem c6_witness :
    mW.rowCount (.node 0 1 none) = .ok 0 ∧
    ∀ row col2 : Int, mW.index row col2 (.node 0 1 none) = .ok .invalid :=
  (c6_columns mW).2 0 1 catW rfl (by decide)

/-- C7: out-of-range probing returns an invalid index and never raises.
Under the root this holds for every `(row, col)` outright; under any
well-formed parent index, `rowCount` succeeds with some `rc` and every
`(row, col)` outside `[0, rc) × [0, 3)` yields `ok invalid`. -/
theorem c7_oob_probe (m : SqlCompletionModel) :
    (∀ row col : Int,
      row < 0 ∨ (m.categories.length : Int) ≤ row ∨ col < 0 ∨ 3 ≤ col →
      m.index row col .invalid = .ok .invalid) ∧
    (∀ parent : QModelIndex, m.wfIdx parent = true →
      ∃ rc : Nat, m.rowCount parent = .ok rc ∧
        ∀ row col : Int,
          row < 0 ∨ (rc : Int) ≤ row ∨ col < 0 ∨ 3 ≤ col →
          m.index row col parent = .ok .invalid) := by
  constructor
  · intro row col h
    exact index_oob m .invalid m.categories.length (rowCount_root m) row col h
  · intro parent hwf
    have hrc : ∃ rc : Nat, m.rowCount parent = .ok rc := by
      match parent with
      | .invalid => exact ⟨m.categories.length, rowCount_root m⟩
      | .node r col none =>
        have hr : r < m.categories.length := by
          simpa [SqlCompletionModel.wfIdx] using hwf
        obtain ⟨c, hc⟩ : ∃ c, m.categories[r]? = some c := by
          rw [List.getElem?_eq_getElem hr]
          exact ⟨_, rfl⟩
        exact ⟨if col = 0 then c.rows else 0, rowCount_category m r col c hc⟩
      | .node r col (some q) => exact ⟨0, rowCount_item m r col q⟩
    obtain ⟨rc, hrc⟩ := hrc
    exact ⟨rc, hrc, fun row col h => index_oob m parent rc hrc row col h⟩

/-- C7 witness: probing row 5 under the root and under the category of the
concrete model yields invalid indices. -/
theorem c7_witness :
    mW.index 5 0 .invalid = .ok .invalid ∧
    ∃ rc : Nat, mW.rowCount (.node 0 0 none) = .ok rc ∧
      ∀ row col : Int,
        row < 0 ∨ (rc : Int) ≤ row ∨ col < 0 ∨ 3 ≤ col →
        mW.index row col (.node 0 0 none) = .ok .invalid :=
  ⟨(c7_oob_probe mW).1 5 0 (by decide),
    (c7_oob_probe mW).2 (.node 0 0 none) (by decide)⟩

theorem applyAll_getElem (compiled : List Char) (engine : Nat → Nat)
    (i j : Nat) (l : List SqlCompletionCategory) :
    (applyAll compiled engine i l)[j]? =
      (l[j]?).map (fun c => c.set_pattern compiled (engine (i + j))) := by
  induction l generalizing i j with
  | nil => simp [applyAll]
  | cons c rest ih =>
    match j with
    | 0 => simp [applyAll]
    | j + 1 =>
      simp only [applyAll, List.getElem?_cons_succ, ih (i + 1) j]
      have : i + 1 + j = i + (j + 1) := by omega
      rw [this]

theorem applyAll_length (compiled : List Char) (engine : Nat → Nat)
    (i : Nat) (l : List SqlCompletionCategory) :
    (applyAll compiled engine i l).length = l.length := by
  induction l generalizing i with
  | nil => rfl
  | cons c rest ih => simp [applyAll, ih]

/-- C5: `set_pattern(raw)` stores `raw` unchanged in `pattern`, keeps the
category list the same length, and gives the category at every position `i`
a parameter binding consisting of the compiled pattern (not `raw`) repeated
once per filtered field. -/
theorem c5_set_pattern_broadcast (m : SqlCompletionModel) (raw : List Char)
    (engine : Nat → Nat) :
    (m.set_pattern raw engine).pattern = raw ∧
    (m.set_pattern raw engine).categories.length = m.categories.length ∧
    ∀ (i : Nat) (c : SqlCompletionCategory), m.categories[i]? = some c →
      ∃ c' : SqlCompletionCategory,
        (m.set_pattern raw engine).categories[i]? = some c' ∧
        c'.appliedParams.length = c.filterColumns.length ∧
        ∀ p ∈ c'.appliedParams, p = compilePattern raw := by
  refine ⟨rfl, applyAll_length _ _ 0 _, fun i c hc => ?_⟩
  refine ⟨c.set_pattern (compilePattern raw) (engine i), ?_, ?_, ?_⟩
  · show (applyAll (compilePattern raw) engine 0 m.categories)[i]? = _
    rw [applyAll_getElem, hc]
    simp
  · simp [SqlCompletionCategory.set_pattern]
  · intro p hp
    simp only [SqlCompletionCategory.set_pattern] at hp
    exact List.eq_of_mem_replicate hp

/-- C5 witness at the concrete model, raw pattern `"a b"`. -/
theorem c5_witness :
    ∃ c' : SqlCompletionCategory,
      (mW.set_pattern ['a', ' ', 'b'] (fun _ => 7)).categories[0]? = some c' ∧
      c'.appliedParams.length = catW.filterColumns.length ∧
      ∀ p ∈ c'.appliedParams, p = compilePattern ['a', ' ', 'b'] :=
  (c5_set_pattern_broadcast mW ['a', ' ', 'b'] (fun _ => 7)).2.2 0 catW rfl

/-- C10: constructing the model with `columns_to_filter` omitted/None or the
empty list stores `[0]`, any non-empty list is stored unchanged, and a
category created afterwards filters on exactly the stored columns (so with
the default it filters only on column 0). -/
theorem c10_columns_to_filter_default :
    (SqlCompletionModel.init none).columns_to_filter = [0] ∧
    (SqlCompletionModel.init (some [])).columns_to_filter = [0] ∧
    (∀ l : List Nat, l ≠ [] →
      (SqlCompletionModel.init (some l)).columns_to_filter = l) ∧
    (∀ (m : SqlCompletionModel) (name : List Char) (initRows : Nat)
        (cat : SqlCompletionCategory),
      (m.new_category name initRows).categories.getLast? = some cat →
      cat.filterColumns = m.columns_to_filter) := by
  refine ⟨rfl, rfl, fun l hl => ?_, fun m name initRows cat hcat => ?_⟩
  · simp [SqlCompletionModel.init, hl]
  · simp only [SqlCompletionModel.new_category] at hcat
    rw [List.getLast?_concat] at hcat
    cases hcat
    rfl

/-- C10 witness: a default-constructed model plus one category filters only
on column 0. -/
theorem c10_witness :
    ∃ cat : SqlCompletionCategory,
      ((SqlCompletionModel.init none).new_category ['t'] 4).categories.getLast?
        = some cat ∧ cat.filterColumns = [0] := by
  refine ⟨_, rfl, ?_⟩
  have h := c10_columns_to_filter_default.2.2.2
    (SqlCompletionModel.init none) ['t'] 4 _ rfl
  rw [h]
  rfl

theorem firstItemAux_all_zero (m : SqlCompletionModel)
    (cats : List SqlCompletionCategory)
    (h : ∀ c ∈ cats, c.rows = 0) (row : Nat) :
    firstItemAux m cats row = .ok .invalid := by
  induction cats generalizing row with
  | nil => rfl
  | cons c rest ih =>
    have hc : c.rows = 0 := h c (by simp)
    have hrest : ∀ c ∈ rest, c.rows = 0 := fun c hm => h c (by simp [hm])
    simp [firstItemAux, hc, ih hrest]

theorem firstItemAux_finds (m : SqlCompletionModel) (i : Nat)
    (c : SqlCompletionCategory) (hi : m.categories[i]? = some c)
    (hpos : 0 < c.rows) :
    ∀ (k row : Nat), i - row = k → row ≤ i →
    (∀ j, row ≤ j → j < i → ∀ cj, m.categories[j]? = some cj → cj.rows = 0) →
    firstItemAux m (m.categories.drop row) row = .ok (.node 0 0 (some i)) := by
  have hlen : i < m.categories.length :=
    (List.getElem?_eq_some_iff.mp hi).1
  intro k
  induction k with
  | zero =>
    intro row hk hri _
    have hri' : row = i := by omega
    subst hri'
    have hdrop : m.categories.drop row = c :: m.categories.drop (row + 1) := by
      rw [List.drop_eq_getElem_cons hlen]
      congr 1
      have := List.getElem?_eq_getElem hlen
      rw [this] at hi
      exact Option.some_injective _ hi
    rw [hdrop]
    have hroot : m.index (row : Int) 0 .invalid = .ok (.node row 0 none) := by
      have h := index_root_ok m row 0 (by omega) (by exact_mod_cast hlen)
        (by omega) (by omega)
      simpa using h
    have hunder : m.index 0 0 (.node row 0 none) = .ok (.node 0 0 (some row)) := by
      have h := index_under_category_ok m row c hi 0 0 (by omega)
        (by exact_mod_cast hpos) (by omega) (by omega)
      simpa using h
    simp [firstItemAux, hpos, hroot, hunder, QModelIndex.isValid]
  | succ k ih =>
    intro row hk hri hzero
    have hrowlt : row < i := by omega
    have hrowlen : row < m.categories.length := by omega
    have hdrop : m.categories.drop row =
        m.categories[row] :: m.categories.drop (row + 1) :=
      List.drop_eq_getElem_cons hrowlen
    have hz : (m.categories[row]).rows = 0 :=
      hzero row (by omega) hrowlt m.categories[row]
        (List.getElem?_eq_getElem hrowlen)
    rw [hdrop]
    have hnext := ih (row + 1) (by omega) (by omega)
      (fun j h1 h2 cj hcj => hzero j (by omega) h2 cj hcj)
    simp [firstItemAux, hz, hnext]

theorem lastItemAux_all_zero (m : SqlCompletionModel)
    (h : ∀ c ∈ m.categories, c.rows = 0) :
    ∀ n, n ≤ m.categories.length → lastItemAux m n = .ok .invalid := by
  intro n
  induction n with
  | zero => intro _; rfl
  | succ n ih =>
    intro hn
    have hlt : n < m.categories.length := by omega
    have hget : m.categories[n]? = some m.categories[n] :=
      List.getElem?_eq_getElem hlt
    have hz : (m.categories[n]).rows = 0 :=
      h m.categories[n] (List.getElem_mem hlt)
    simp [lastItemAux, hget, hz, ih (by omega)]

theorem lastItemAux_finds (m : SqlCompletionModel) (i : Nat)
    (c : SqlCompletionCategory) (hi : m.categories[i]? = some c)
    (hpos : 0 < c.rows) :
    ∀ n, n ≤ m.categories.length → i < n →
    (∀ j, i < j → j < n → ∀ cj, m.categories[j]? = some cj → cj.rows = 0) →
    lastItemAux m n = .ok (.node (c.rows - 1) 0 (some i)) := by
  have hlen : i < m.categories.length :=
    (List.getElem?_eq_some_iff.mp hi).1
  intro n
  induction n with
  | zero => intro _ h; omega
  | succ n ih =>
    intro hn hin hzero
    by_cases hni : n = i
    · subst hni
      have hroot : m.index (n : Int) 0 .invalid = .ok (.node n 0 none) := by
        have h := index_root_ok m n 0 (by omega) (by exact_mod_cast hlen)
          (by omega) (by omega)
        simpa using h
      have hunder : m.index ((c.rows : Int) - 1) 0 (.node n 0 none) =
          .ok (.node (c.rows - 1) 0 (some n)) := by
        have h := index_under_category_ok m n c hi ((c.rows : Int) - 1) 0
          (by omega) (by omega) (by omega) (by omega)
        have ht : ((c.rows : Int) - 1).toNat = c.rows - 1 := by omega
        rw [ht] at h
        simpa using h
      simp [lastItemAux, hi, hpos, hroot, hunder, QModelIndex.isValid]
    · have hin' : i < n := by omega
      have hlt : n < m.categories.length := by omega
      have hget : m.categories[n]? = some m.categories[n] :=
        List.getElem?_eq_getElem hlt
      have hz : (m.categories[n]).rows = 0 :=
        hzero n hin' (by omega) m.categories[n] hget
      have hnext := ih (by omega) hin'
        (fun j h1 h2 cj hcj => hzero j h1 (by omega) cj hcj)
      simp [lastItemAux, hget, hz, hnext]

/-- C8: `first_item` scans categories in forward order and `last_item` in
reverse order for the first category with a non-zero row count, returning
the index of its row 0 (respectively its last row) at column 0; both
return an invalid index when every category has zero rows (which covers a
model with no categories). -/
theorem c8_first_last (m : SqlCompletionModel) :
    ((∀ c ∈ m.categories, c.rows = 0) →
      m.first_item = .ok .invalid ∧ m.last_item = .ok .invalid) ∧
    (∀ (i : Nat) (c : SqlCompletionCategory), m.categories[i]? = some c →
      0 < c.rows →
      (∀ j, j < i → ∀ cj, m.categories[j]? = some cj → cj.rows = 0) →
      m.first_item = .ok (.node 0 0 (some i))) ∧
    (∀ (i : Nat) (c : SqlCompletionCategory), m.categories[i]? = some c →
      0 < c.rows →
      (∀ j, i < j → ∀ cj, m.categories[j]? = some cj → cj.rows = 0) →
      m.last_item = .ok (.node (c.rows - 1) 0 (some i))) := by
  refine ⟨fun h => ⟨?_, ?_⟩, fun i c hi hpos hmin => ?_, fun i c hi hpos hmax => ?_⟩
  · exact firstItemAux_all_zero m m.categories h 0
  · exact lastItemAux_all_zero m h m.categories.length (by omega)
  · have h := firstItemAux_finds m i c hi hpos i 0 (by omega) (by omega)
      (fun j _ h2 cj hcj => hmin j h2 cj hcj)
    rw [SqlCompletionModel.first_item]
    rw [List.drop_zero] at h
    exact h
  · exact lastItemAux_finds m i c hi hpos m.categories.length (by omega)
      (List.getElem?_eq_some_iff.mp hi).1
      (fun j h1 _ cj hcj => hmax j h1 cj hcj)

/-- C8 witness: in the concrete one-category model with two rows,
`first_item` is the item at row 0 and `last_item` the item at row 1. -/
theorem c8_witness :
    mW.first_item = .ok (.node 0 0 (some 0)) ∧
    mW.last_item = .ok (.node (catW.rows - 1) 0 (some 0)) := by
  constructor
  · exact (c8_first_last mW).2.1 0 catW rfl (by decide)
      (fun j hj cj hcj => absurd hj (Nat.not_lt_zero j))
  · exact (c8_first_last mW).2.2 0 catW rfl (by decide)
      (fun j hj cj hcj => by
        match j, hj with
        | n + 1, _ => simp [mW, catW] at hcj)
